import Mathlib

/-!
Shallow embedding of the NEORV32 executable image generator core:
the SHA-256 implementation of `sw/lib/source/crypto.c` and the
`-app_bin` / `-bld_vhd` paths of `sw/image_gen/image_gen.c`.

Bytes are modelled as `Nat` values (below 256 in any real run); 32-bit
machine words are `Nat` values reduced modulo `2 ^ 32` exactly where the
C code's `uint32_t` arithmetic wraps.
-/

namespace ImageGen

/-- Little-endian 32-bit word assembly, embedding the C idiom
`tmp = b0 | (b1 << 8) | (b2 << 16) | (b3 << 24)` used throughout
`image_gen.c` (each `bi` is an `unsigned char`). -/
def le32 (b0 b1 b2 b3 : Nat) : Nat :=
  Nat.lor (Nat.lor (Nat.lor b0 (b1 <<< 8)) (b2 <<< 16)) (b3 <<< 24)

/-- Little-endian word assembly of the first four entries of a byte list
(missing entries read as 0, matching a zero-initialized buffer). -/
def le32l (l : List Nat) : Nat :=
  le32 (l.getD 0 0) (l.getD 1 0) (l.getD 2 0) (l.getD 3 0)

/-- The four little-endian bytes of a 32-bit word, embedding the C idiom
`fputc((w >> 0) & 0xFF); fputc((w >> 8) & 0xFF); ...` (`/ 2 ^ k % 256`
is exactly `(w >> k) & 0xFF` on `Nat`). -/
def le32bytes (w : Nat) : List Nat :=
  [w % 256, w / 2 ^ 8 % 256, w / 2 ^ 16 % 256, w / 2 ^ 24 % 256]

/-- The eight big-endian bytes of a 64-bit value, embedding
`buf[56] = (bits >> 56) & 0xff; ... buf[63] = bits & 0xff;` of
`crypto.c`. -/
def be64bytes (w : Nat) : List Nat :=
  [w / 2 ^ 56 % 256, w / 2 ^ 48 % 256, w / 2 ^ 40 % 256, w / 2 ^ 32 % 256,
   w / 2 ^ 24 % 256, w / 2 ^ 16 % 256, w / 2 ^ 8 % 256, w % 256]

/-! ### crypto.c : SHA-256 -/

/-- The SHA-256 round constant table `k[64]` of `crypto.c` (written here
in chunks of six constants). -/
def kTable : List Nat :=
  [0x428a2f98, 0x71374491, 0xb5c0fbcf, 0xe9b5dba5, 0x3956c25b, 0x59f111f1]
    ++ [0x923f82a4, 0xab1c5ed5, 0xd807aa98, 0x12835b01, 0x243185be, 0x550c7dc3]
    ++ [0x72be5d74, 0x80deb1fe, 0x9bdc06a7, 0xc19bf174, 0xe49b69c1, 0xefbe4786]
    ++ [0x0fc19dc6, 0x240ca1cc, 0x2de92c6f, 0x4a7484aa, 0x5cb0a9dc, 0x76f988da]
    ++ [0x983e5152, 0xa831c66d, 0xb00327c8, 0xbf597fc7, 0xc6e00bf3, 0xd5a79147]
    ++ [0x06ca6351, 0x14292967, 0x27b70a85, 0x2e1b2138, 0x4d2c6dfc, 0x53380d13]
    ++ [0x650a7354, 0x766a0abb, 0x81c2c92e, 0x92722c85, 0xa2bfe8a1, 0xa81a664b]
    ++ [0xc24b8b70, 0xc76c51a3, 0xd192e819, 0xd6990624, 0xf40e3585, 0x106aa070]
    ++ [0x19a4c116, 0x1e376c08, 0x2748774c, 0x34b0bcb5, 0x391c0cb3, 0x4ed8aa4a]
    ++ [0x5b9cca4f, 0x682e6ff3, 0x748f82ee, 0x78a5636f, 0x84c87814, 0x8cc70208]
    ++ [0x90befffa, 0xa4506ceb, 0xbef9a3f7, 0xc67178f2]

/-- The SHA-256 initial hash value `h[8]` of `crypto.c`. -/
def h0 : List Nat :=
  [0x6a09e667, 0xbb67ae85, 0x3c6ef372]
    ++ [0xa54ff53a, 0x510e527f, 0x9b05688c]
    ++ [0x1f83d9ab, 0x5be0cd19]

/-- Embeds `ROTR(x,n) = (x >> n) | (x << (32 - n))` on `uint32_t` (the
left shift wraps modulo `2 ^ 32`). -/
def rotr (x n : Nat) : Nat :=
  Nat.lor (x >>> n) ((x <<< (32 - n)) % 2 ^ 32)

/-- Embeds `CH(x,y,z) = (x & y) ^ (~x & z)`; on a 32-bit value `~x` is
`x ^ 0xFFFFFFFF`. -/
def ch (x y z : Nat) : Nat :=
  Nat.xor (Nat.land x y) (Nat.land (Nat.xor x 0xFFFFFFFF) z)

/-- Embeds `MAJ(x,y,z) = (x & y) ^ (x & z) ^ (y & z)`. -/
def maj (x y z : Nat) : Nat :=
  Nat.xor (Nat.xor (Nat.land x y) (Nat.land x z)) (Nat.land y z)

/-- Embeds `BSIG0(x) = ROTR(x,2) ^ ROTR(x,13) ^ ROTR(x,22)`. -/
def bsig0 (x : Nat) : Nat :=
  Nat.xor (Nat.xor (rotr x 2) (rotr x 13)) (rotr x 22)

/-- Embeds `BSIG1(x) = ROTR(x,6) ^ ROTR(x,11) ^ ROTR(x,25)`. -/
def bsig1 (x : Nat) : Nat :=
  Nat.xor (Nat.xor (rotr x 6) (rotr x 11)) (rotr x 25)

/-- Embeds `SSIG0(x) = ROTR(x,7) ^ ROTR(x,18) ^ SHR(x,3)`. -/
def ssig0 (x : Nat) : Nat :=
  Nat.xor (Nat.xor (rotr x 7) (rotr x 18)) (x >>> 3)

/-- Embeds `SSIG1(x) = ROTR(x,17) ^ ROTR(x,19) ^ SHR(x,10)`. -/
def ssig1 (x : Nat) : Nat :=
  Nat.xor (Nat.xor (rotr x 17) (rotr x 19)) (x >>> 10)

/-- Big-endian 32-bit word assembly, embedding
`w[i] = (b0 << 24) | (b1 << 16) | (b2 << 8) | b3` of `crypto.c`. -/
def be32 (b0 b1 b2 b3 : Nat) : Nat :=
  Nat.lor (Nat.lor (Nat.lor (b0 <<< 24) (b1 <<< 16)) (b2 <<< 8)) b3

/-- The 16 big-endian words of a 64-byte block
(`for (i = 0; i < 16; i++) w[i] = ...`). -/
def words16 : List Nat → List Nat
  | b0 :: b1 :: b2 :: b3 :: rest => be32 b0 b1 b2 b3 :: words16 rest
  | _ => []

/-- Message-schedule extension kept most-recent-first: one step prepends
`w[i] = SSIG1(w[i-2]) + w[i-7] + SSIG0(w[i-15]) + w[i-16]` (mod `2 ^ 32`). -/
def schedRev : Nat → List Nat → List Nat
  | 0, acc => acc
  | n + 1, acc =>
      let nw := (ssig1 (acc.getD 1 0) + acc.getD 6 0 + ssig0 (acc.getD 14 0)
                  + acc.getD 15 0) % 2 ^ 32
      schedRev n (nw :: acc)

/-- The 64 message-schedule words of one block
(`for (i = 16; i < 64; i++) w[i] = SSIG1(w[i-2]) + w[i-7] + SSIG0(w[i-15]) + w[i-16]`). -/
def schedule (ws16 : List Nat) : List Nat :=
  (schedRev 48 ws16.reverse).reverse

/-- One SHA-256 round on the working-variable tuple `[a,b,c,d,e,f,g,h]`,
fed the pair `(k[i], w[i])`; all additions wrap modulo `2 ^ 32`. -/
def roundStep (kw : Nat × Nat) (st : List Nat) : List Nat :=
  match st with
  | [a, b, c, d, e, f, g, hh] =>
      let t1 := (hh + bsig1 e + ch e f g + kw.1 + kw.2) % 2 ^ 32
      let t2 := (bsig0 a + maj a b c) % 2 ^ 32
      [(t1 + t2) % 2 ^ 32, a, b, c, (d + t1) % 2 ^ 32, e, f, g]
  | st => st

/-- One SHA-256 compression: 64 rounds over a 64-byte block, then the
per-block addition `h[i] += ...` (mod `2 ^ 32`). -/
def compress (hs : List Nat) (block : List Nat) : List Nat :=
  let w := schedule (words16 block)
  let fin := (kTable.zip w).foldl (fun st kw => roundStep kw st) hs
  List.zipWith (fun x y => (x + y) % 2 ^ 32) hs fin

/-- Fuel-indexed splitting of the data into full 64-byte blocks plus the
remaining tail, embedding `while (offset + 64 <= len) { ...; offset += 64; }`
of `crypto.c`; the fuel (instantiated with the data length) only bounds the
iteration count. -/
def fullBlocksAux : Nat → List Nat → List (List Nat) × List Nat
  | 0, data => ([], data)
  | fuel + 1, data =>
      if 64 ≤ data.length then
        let p := fullBlocksAux fuel (data.drop 64)
        (data.take 64 :: p.1, p.2)
      else ([], data)

/-- Full 64-byte blocks of the input plus the remaining tail (< 64 bytes). -/
def fullBlocks (data : List Nat) : List (List Nat) × List Nat :=
  fullBlocksAux data.length data

/-- The one or two final padded blocks built by the padding phase of
`sha256` (`crypto.c` lines 62-121): the tail (`rem` bytes) is placed in a
zeroed 64-byte buffer, `buf[rem] = 0x80`; if `rem >= 56` that buffer is
compressed on its own and a fresh zeroed buffer is used; the last 8 bytes
of the final buffer carry the bit length, big-endian. -/
def finalBlocks (tail : List Nat) (len : Nat) : List (List Nat) :=
  let buf := tail ++ 0x80 :: List.replicate (63 - tail.length) 0
  if 56 ≤ tail.length then
    [buf, List.replicate 56 0 ++ be64bytes (8 * len)]
  else
    [buf.take 56 ++ be64bytes (8 * len)]

/-- The complete sequence of 64-byte blocks compressed by `sha256` on a
given input: all full data blocks followed by the one or two padding
blocks. -/
def sha256BlockSeq (data : List Nat) : List (List Nat) :=
  (fullBlocks data).1 ++ finalBlocks (fullBlocks data).2 data.length

/-- The `sha256` function of `crypto.c`: the digest is the fold of the
compression function over all (data and padding) blocks, starting from the
initial hash value; the result is the 8-word `out_digest`. -/
def sha256 (data : List Nat) : List Nat :=
  (sha256BlockSeq data).foldl compress h0

/-! Part 2: image_gen.c -/

/-- The executable signature magic word (`image_gen.c` line 23). -/
def signature : Nat := 0x4788CAFE

/-- The 32-bit bitwise complement `~x` of a `uint32_t` value. -/
def bitnot32 (x : Nat) : Nat := 2 ^ 32 - 1 - x % 2 ^ 32

/-- Integer sum of the little-endian 32-bit words of the complete 4-byte
groups of a byte list (a trailing group of fewer than 4 bytes contributes
nothing here; the loop embedding below accounts for it separately). -/
def sumWords : List Nat → Nat
  | b0 :: b1 :: b2 :: b3 :: rest => le32 b0 b1 b2 b3 + sumWords rest
  | _ => 0

/-- Embeds the `-app_bin` read loop of `image_gen.c` (lines 164-178):
`while (fread(&buffer, 1, 4, input) != 0)`. The state is the 4-byte
`buffer`, the running `checksum` and `size` (both `uint32_t`, so they wrap
modulo `2 ^ 32`), and the payload bytes already copied to the output. A
full read overwrites the whole buffer; a final short read of `r < 4`
bytes returns `r != 0`, so the iteration still runs: it overwrites only
the first `r` buffer bytes, leaves the remaining bytes from the previous
read unchanged, and the next `fread` returns 0 and ends the loop.
Result: `(checksum, size, payload)`. -/
def appBinLoopAux (buf : List Nat) (cks sz : Nat) (pay : List Nat) :
    List Nat → Nat × Nat × List Nat
  | [] => (cks, sz, pay)
  | b0 :: b1 :: b2 :: b3 :: rest =>
      appBinLoopAux [b0, b1, b2, b3] ((cks + le32 b0 b1 b2 b3) % 2 ^ 32)
        ((sz + 4) % 2 ^ 32) (pay ++ [b0, b1, b2, b3]) rest
  | rest =>
      let buf' := rest ++ buf.drop rest.length
      ((cks + le32l buf') % 2 ^ 32, (sz + 4) % 2 ^ 32, pay ++ buf')

/-- One whole run of the `-app_bin` loop from an arbitrary initial buffer
content (the C `buffer` array is uninitialized before the first read).
Result: `(checksum, size, payload)`. -/
def appBinRun (init b : List Nat) : Nat × Nat × List Nat :=
  appBinLoopAux init 0 0 [] b

/-- The checksum header field `checksum = (~checksum) + 1` applied to the
loop's accumulated sum (`image_gen.c` line 192), on `uint32_t`. -/
def checksumField (init b : List Nat) : Nat :=
  (bitnot32 (appBinRun init b).1 + 1) % 2 ^ 32

/-- The complete `-app_bin` output byte stream (`image_gen.c` lines
144-197): 12 reserved header bytes are overwritten after the copy loop by
the little-endian signature, size and checksum words, so the net output
is header followed by the copied payload. -/
def appBinOutput (init b : List Nat) : List Nat :=
  le32bytes signature ++ le32bytes (appBinRun init b).2.1
    ++ le32bytes (checksumField init b) ++ (appBinRun init b).2.2

/-- The alignment warning of `image_gen.c` lines 91-93: printed, and
nothing else, when the input size is not a multiple of 4. -/
def alignWarning (inputSize : Nat) : Bool := inputSize % 4 != 0

/-- The last full 4-byte group before a trailing short read: the buffer
contents that the final short `fread` partially overwrites (for inputs of
fewer than 4 bytes this is the initial, uninitialized buffer itself). -/
def staleBuf (init b : List Nat) : List Nat :=
  if b.length < 4 then init
  else (b.take (4 * (b.length / 4))).drop (4 * (b.length / 4) - 4)

/-- The buffer contents during the final (short-read) iteration of the
`-app_bin` loop on an input whose length is not a multiple of 4: the
fresh trailing bytes followed by the stale bytes left over from the
previous read in the unfilled high-order buffer positions. -/
def finalBuf (init b : List Nat) : List Nat :=
  b.drop (4 * (b.length / 4)) ++ (staleBuf init b).drop (b.length % 4)

/-- Embeds the sequence of checks `main` performs before any output is
produced (`image_gen.c` lines 79-108), as a transformer of the output
path's prior contents: a failed input `fopen` returns -2; an empty input
returns -3 with the input closed; only after these does
`fopen(argv[3], "wb")` run, which truncates any pre-existing output file.
Result: `(early exit code if any, contents at the output path)`. -/
def mainUpToOutput (input : Option (List Nat)) (outFile : Option (List Nat)) :
    Option Int × Option (List Nat) :=
  match input with
  | none => (some (-2), outFile)
  | some bytes =>
      if bytes.length = 0 then (some (-3), outFile)
      else (none, some [])

/-- Embeds the signature-to-words segmentation of `image_gen.c` lines
393-400: `for (k = 0; k < sig_len; k += 4)` assembles a little-endian
word from up to 4 bytes; positions beyond the signature length stay 0
(zero padding of a final group of fewer than 4 bytes). -/
def sigWords : List Nat → List Nat
  | [] => []
  | [b0] => [le32 b0 0 0 0]
  | [b0, b1] => [le32 b0 b1 0 0]
  | [b0, b1, b2] => [le32 b0 b1 b2 0]
  | b0 :: b1 :: b2 :: b3 :: rest => le32 b0 b1 b2 b3 :: sigWords rest

/-- The secure-boot info words emitted by the `-bld_vhd` branch
(`image_gen.c` lines 393-404): the signature bytes segmented into
little-endian words, followed by one word holding `input_words`
(the input size in bytes divided by 4, an `unsigned int`). -/
def secureBootRecord (sig : List Nat) (inputWords : Nat) : List Nat :=
  sigWords sig ++ [inputWords % 2 ^ 32]

/-- Embeds the signing and record-emission steps of the `-bld_vhd`
branch (`image_gen.c` lines 367-404) on its defined executions (the
signature file could be opened and held `sigFileBytes`). `ret` is the
exit status of the external `openssl` signing process; the code compares
it to 0 only to print a message (the `handle error` comments mark
handling that is absent), so no error branch returns: control always
reaches the record emission, with
`sig_len = fread(signature, 1, 256, sig_file)` reading at most 256
bytes. A result of `none` would model an aborted run with no record;
the code never produces it. -/
def bldSecureBootOutcome (ret : Int) (sigFileBytes : List Nat)
    (inputWords : Nat) : Option (List Nat) :=
  some (secureBootRecord (sigFileBytes.take 256) inputWords)

/-- The two transient signing artifacts of a `-bld_vhd` run: the digest
file `sha256.bin` and the signature file `sha256.sig`. A field holding
`none` means no file exists at that path. -/
structure TempFS where
  digestFile : Option (List Nat)
  sigFile : Option (List Nat)

/-- Result of the signing phase: either the phase ran to completion
(reaching the `unlink` calls at lines 389-390) or execution was lost
mid-phase on a NULL stream, with the artifact state frozen at that
point. -/
inductive SigningOutcome where
  | finished (fs : TempFS) (sigRead : List Nat)
  | crashed (fs : TempFS)

/-- Embeds the signing phase of the `-bld_vhd` branch (`image_gen.c`
lines 355-390) as a transformer of the two artifact paths. On the path
where both `fopen` calls succeed: write the digest bytes to
`sha256.bin`; run the external signer (exit status `ret`, leaving
`sigOut` at `sha256.sig`, and checked only to print a message); read
back at most 256 signature bytes; then `unlink` both files
unconditionally (lines 389-390). The two `fopen` error branches only
print (their `handle error` comments mark handling that is absent) and
fall through to `fwrite` respectively `fread` on the NULL stream, which
in a real execution terminates the process before the unlinks are
reached: `digestOpenOk = false` models `fopen("sha256.bin", "wb")`
failing (no digest file is created and the `fwrite` loop is fatal), and
`sigOut = none` models `fopen(SIGNATURE_FILE, "rb")` failing after the
digest file was written (the `fread` is fatal, so `sha256.bin` is left
behind). -/
def signingPhase (digestOpenOk : Bool) (ret : Int) (sigOut : Option (List Nat))
    (digestBytes : List Nat) (fs : TempFS) : SigningOutcome :=
  if digestOpenOk then
    let fs1 : TempFS := ⟨some digestBytes, fs.sigFile⟩
    let fs2 : TempFS := ⟨fs1.digestFile, sigOut⟩
    match fs2.sigFile with
    | some bytes => SigningOutcome.finished ⟨none, none⟩ (bytes.take 256)
    | none => SigningOutcome.crashed fs2
  else
    SigningOutcome.crashed ⟨fs.digestFile, fs.sigFile⟩

end ImageGen

/-! Part 3: verification of the claims. -/

namespace ImageGen

theorem appBinLoopAux_aligned (buf : List Nat) (cks sz : Nat) (pay b : List Nat)
    (hc : cks < 2 ^ 32) (hs : sz < 2 ^ 32) (hmod : b.length % 4 = 0) :
    appBinLoopAux buf cks sz pay b =
      ((cks + sumWords b) % 2 ^ 32, (sz + b.length) % 2 ^ 32, pay ++ b) := by
  induction buf, cks, sz, pay, b using appBinLoopAux.induct with
  | case1 buf cks sz pay =>
      simp [appBinLoopAux, sumWords]
      omega
  | case2 buf cks sz pay b0 b1 b2 b3 rest ih =>
      simp only [List.length_cons] at hmod
      simp only [appBinLoopAux, sumWords]
      rw [ih (Nat.mod_lt _ (by norm_num)) (Nat.mod_lt _ (by norm_num)) (by omega)]
      simp only [Prod.mk.injEq, List.length_cons]
      refine ⟨by omega, by omega, by simp⟩
  | case3 buf cks sz pay rest h1 h2 =>
      rcases rest with _ | ⟨a, _ | ⟨b, _ | ⟨c, _ | ⟨d, t⟩⟩⟩⟩
      · exact absurd rfl h1
      · simp at hmod
      · simp at hmod
      · simp at hmod
      · exact absurd rfl (h2 a b c d t)

theorem take_mul4_cons4 (b0 b1 b2 b3 : Nat) (rest : List Nat) :
    (b0 :: b1 :: b2 :: b3 :: rest).take
        (4 * ((b0 :: b1 :: b2 :: b3 :: rest).length / 4)) =
      b0 :: b1 :: b2 :: b3 :: rest.take (4 * (rest.length / 4)) := by
  have hq : (b0 :: b1 :: b2 :: b3 :: rest).length / 4 = rest.length / 4 + 1 := by
    simp only [List.length_cons]; omega
  rw [hq, show 4 * (rest.length / 4 + 1) = 4 * (rest.length / 4) + 1 + 1 + 1 + 1 by ring]
  simp [List.take_succ_cons]

theorem drop_mul4_cons4 (b0 b1 b2 b3 : Nat) (rest : List Nat) :
    (b0 :: b1 :: b2 :: b3 :: rest).drop
        (4 * ((b0 :: b1 :: b2 :: b3 :: rest).length / 4)) =
      rest.drop (4 * (rest.length / 4)) := by
  have hq : (b0 :: b1 :: b2 :: b3 :: rest).length / 4 = rest.length / 4 + 1 := by
    simp only [List.length_cons]; omega
  rw [hq, show 4 * (rest.length / 4 + 1) = 4 * (rest.length / 4) + 1 + 1 + 1 + 1 by ring]
  simp [List.drop_succ_cons]

theorem staleBuf_cons4 (buf : List Nat) (b0 b1 b2 b3 : Nat) (rest : List Nat) :
    staleBuf buf (b0 :: b1 :: b2 :: b3 :: rest) =
      staleBuf [b0, b1, b2, b3] rest := by
  have hq : (b0 :: b1 :: b2 :: b3 :: rest).length / 4 = rest.length / 4 + 1 := by
    simp only [List.length_cons]; omega
  unfold staleBuf
  have hnot : ¬ ((b0 :: b1 :: b2 :: b3 :: rest).length < 4) := by
    simp only [List.length_cons]; omega
  rw [if_neg hnot, take_mul4_cons4]
  by_cases hl : rest.length < 4
  · rw [if_pos hl]
    have hq0 : rest.length / 4 = 0 := Nat.div_eq_of_lt hl
    rw [hq, hq0]
    norm_num
  · rw [if_neg hl]
    have h4 : 4 ≤ 4 * (rest.length / 4) := by omega
    rw [hq]
    obtain ⟨m, hm⟩ : ∃ m, 4 * (rest.length / 4) = m + 4 :=
      ⟨4 * (rest.length / 4) - 4, by omega⟩
    rw [show 4 * (rest.length / 4 + 1) - 4 = 4 * (rest.length / 4) by omega, hm]
    have hpeel : List.drop (m + 4) (b0 :: b1 :: b2 :: b3 :: List.take (m + 4) rest)
        = List.drop m (List.take (m + 4) rest) := by
      rw [show (m + 4 : Nat) = m + 1 + 1 + 1 + 1 by ring]
      simp [List.drop_succ_cons]
    rw [hpeel, show m + 4 - 4 = m by omega]

theorem finalBuf_cons4 (buf : List Nat) (b0 b1 b2 b3 : Nat) (rest : List Nat) :
    finalBuf buf (b0 :: b1 :: b2 :: b3 :: rest) =
      finalBuf [b0, b1, b2, b3] rest := by
  unfold finalBuf
  rw [drop_mul4_cons4, staleBuf_cons4]
  have hr : (b0 :: b1 :: b2 :: b3 :: rest).length % 4 = rest.length % 4 := by
    simp only [List.length_cons]; omega
  rw [hr]

theorem appBinLoopAux_unaligned (buf : List Nat) (cks sz : Nat) (pay b : List Nat)
    (hbuf : buf.length = 4) (hc : cks < 2 ^ 32) (hs : sz < 2 ^ 32)
    (hmod : b.length % 4 ≠ 0) :
    appBinLoopAux buf cks sz pay b =
      ((cks + sumWords (b.take (4 * (b.length / 4))) + le32l (finalBuf buf b)) % 2 ^ 32,
       (sz + 4 * (b.length / 4 + 1)) % 2 ^ 32,
       pay ++ b.take (4 * (b.length / 4)) ++ finalBuf buf b) := by
  induction buf, cks, sz, pay, b using appBinLoopAux.induct with
  | case1 buf cks sz pay => simp at hmod
  | case2 buf cks sz pay b0 b1 b2 b3 rest ih =>
      have hm4 : rest.length % 4 ≠ 0 := by
        simp only [List.length_cons] at hmod; omega
      simp only [appBinLoopAux]
      rw [ih rfl (Nat.mod_lt _ (by norm_num)) (Nat.mod_lt _ (by norm_num)) hm4]
      rw [take_mul4_cons4, finalBuf_cons4, sumWords]
      have hq : (b0 :: b1 :: b2 :: b3 :: rest).length / 4 = rest.length / 4 + 1 := by
        simp only [List.length_cons]; omega
      rw [hq]
      simp only [Prod.mk.injEq]
      refine ⟨by omega, by omega, by simp⟩
  | case3 buf cks sz pay rest h1 h2 =>
      rcases rest with _ | ⟨a, _ | ⟨b, _ | ⟨c, _ | ⟨d, t⟩⟩⟩⟩
      · exact absurd rfl h1
      · simp [appBinLoopAux, finalBuf, staleBuf, sumWords]
      · simp [appBinLoopAux, finalBuf, staleBuf, sumWords]
      · simp [appBinLoopAux, finalBuf, staleBuf, sumWords]
      · exact absurd rfl (h2 a b c d t)

theorem le32bytes_mod (x : Nat) : le32bytes (x % 2 ^ 32) = le32bytes x := by
  simp only [le32bytes, List.cons.injEq, and_true]
  refine ⟨?_, ?_, ?_, ?_⟩ <;> omega

theorem bitnot32_mod (x : Nat) : bitnot32 (x % 2 ^ 32) = bitnot32 x := by
  simp only [bitnot32]
  omega

theorem appBinOutput_aligned (init b : List Nat) (hmod : b.length % 4 = 0) :
    appBinOutput init b =
      le32bytes signature ++ le32bytes b.length
        ++ le32bytes ((bitnot32 (sumWords b) + 1) % 2 ^ 32) ++ b := by
  unfold appBinOutput checksumField appBinRun
  rw [appBinLoopAux_aligned init 0 0 [] b (by norm_num) (by norm_num) hmod]
  simp only [Nat.zero_add, le32bytes_mod, bitnot32_mod, List.nil_append]

theorem sigWords_length (sig : List Nat) :
    (sigWords sig).length = (sig.length + 3) / 4 := by
  induction sig using sigWords.induct with
  | case1 => simp [sigWords]
  | case2 b0 => simp [sigWords]
  | case3 b0 b1 => simp [sigWords]
  | case4 b0 b1 b2 => simp [sigWords]
  | case5 b0 b1 b2 b3 rest ih =>
      simp only [sigWords, List.length_cons, ih]
      omega

theorem fullBlocksAux_spec (fuel : Nat) : ∀ data : List Nat, data.length ≤ fuel →
    (fullBlocksAux fuel data).1.length = data.length / 64 ∧
    (fullBlocksAux fuel data).1.flatten = data.take (64 * (data.length / 64)) ∧
    (fullBlocksAux fuel data).2 = data.drop (64 * (data.length / 64)) ∧
    ∀ blk ∈ (fullBlocksAux fuel data).1, blk.length = 64 := by
  induction fuel with
  | zero =>
      intro data h
      have hnil : data = [] := List.eq_nil_of_length_eq_zero (by omega)
      subst hnil
      simp [fullBlocksAux]
  | succ n ih =>
      intro data h
      by_cases h64 : 64 ≤ data.length
      · have hrec := ih (data.drop 64) (by simp; omega)
        simp only [fullBlocksAux, if_pos h64]
        obtain ⟨l1, l2, l3, l4⟩ := hrec
        have hq : data.length / 64 = (data.drop 64).length / 64 + 1 := by
          simp only [List.length_drop]; omega
        refine ⟨?_, ?_, ?_, ?_⟩
        · simp only [List.length_cons, l1, hq]
        · simp only [List.flatten_cons, l2, hq]
          rw [show 64 * ((data.drop 64).length / 64 + 1)
                = 64 + 64 * ((data.drop 64).length / 64) by ring]
          rw [List.take_add]
        · simp only [l3, hq, List.drop_drop]
          congr 1
          ring
        · intro blk hblk
          rcases List.mem_cons.mp hblk with hb | hb
          · subst hb
            simp only [List.length_take]
            omega
          · exact l4 blk hb
      · simp only [fullBlocksAux, if_neg h64]
        have hq : data.length / 64 = 0 := Nat.div_eq_of_lt (by omega)
        simp [hq]

theorem be64bytes_length (x : Nat) : (be64bytes x).length = 8 := rfl

theorem finalBlocks_flatten (tail : List Nat) (len : Nat) (h : tail.length < 64) :
    (finalBlocks tail len).flatten =
      tail ++ 0x80 :: List.replicate ((119 - tail.length) % 64) 0
        ++ be64bytes (8 * len) := by
  unfold finalBlocks
  by_cases h56 : 56 ≤ tail.length
  · rw [if_pos h56]
    simp only [List.flatten_cons, List.flatten_nil, List.append_nil, List.append_assoc,
      List.cons_append]
    rw [show (119 - tail.length) % 64 = (63 - tail.length) + 56 by omega]
    rw [List.replicate_add]
    simp
  · rw [if_neg h56]
    simp only [List.flatten_cons, List.flatten_nil, List.append_nil]
    rw [List.take_append_eq_append_take, List.take_of_length_le (by omega)]
    rw [show 56 - tail.length = (55 - tail.length) + 1 by omega]
    rw [List.take_succ_cons, List.take_replicate]
    rw [show min (55 - tail.length) (63 - tail.length) = 55 - tail.length by omega]
    rw [show (119 - tail.length) % 64 = 55 - tail.length by omega]

theorem finalBlocks_length (tail : List Nat) (len : Nat) :
    (finalBlocks tail len).length = if tail.length < 56 then 1 else 2 := by
  unfold finalBlocks
  by_cases h56 : 56 ≤ tail.length
  · rw [if_pos h56, if_neg (by omega)]
    rfl
  · rw [if_neg h56, if_pos (by omega)]
    rfl

theorem finalBlocks_mem_length (tail : List Nat) (len : Nat) (h : tail.length < 64) :
    ∀ blk ∈ finalBlocks tail len, blk.length = 64 := by
  intro blk hblk
  unfold finalBlocks at hblk
  by_cases h56 : 56 ≤ tail.length
  · rw [if_pos h56] at hblk
    rcases List.mem_cons.mp hblk with hb | hb
    · subst hb
      simp only [List.length_append, List.length_cons, List.length_replicate]
      omega
    · rcases List.mem_cons.mp hb with hb2 | hb2
      · subst hb2
        simp only [List.length_append, List.length_replicate, be64bytes_length]
      · simp at hb2
  · rw [if_neg h56] at hblk
    rcases List.mem_cons.mp hblk with hb | hb
    · subst hb
      simp only [List.length_append, List.length_take, List.length_cons,
        List.length_replicate, be64bytes_length]
      omega
    · simp at hb

end ImageGen

namespace ImageGen

/-- C1 (code-bug evidence): a Signer failure does not abort the `-bld_vhd`
run. With the signing process exiting with status 1 and the signature file
read back empty (a short read of 0 bytes), the code still emits a
secure-boot record (here the single trailing size word) instead of
aborting with no record. -/
theorem c1_record_emitted_despite_failure :
    bldSecureBootOutcome 1 [] 7 = some [7] ∧
    bldSecureBootOutcome 1 [] 7 ≠ none := by decide

/-- C2: `sha256` returns the published reference digests for the empty
byte sequence and for the 3-byte ASCII sequence "abc". -/
theorem c2_sha256_reference_digests :
    sha256 [] =
      [0xe3b0c442, 0x98fc1c14, 0x9afbf4c8, 0x996fb924,
       0x27ae41e4, 0x649b934c, 0xa495991b, 0x7852b855] ∧
    sha256 [0x61, 0x62, 0x63] =
      [0xba7816bf, 0x8f01cfea, 0x414140de, 0x5dae2223,
       0xb00361a3, 0x96177a9c, 0xb410ff61, 0xf20015ad] := by
  constructor <;> decide

/-- C3: for every byte sequence whose length is a multiple of 4, the sum
of its little-endian 32-bit words plus the `-app_bin` checksum field is
congruent to 0 modulo `2 ^ 32`. -/
theorem c3_checksum_sum_zero (init b : List Nat) (hmod : b.length % 4 = 0) :
    (sumWords b + checksumField init b) % 2 ^ 32 = 0 := by
  unfold checksumField appBinRun
  rw [appBinLoopAux_aligned init 0 0 [] b (by norm_num) (by norm_num) hmod]
  simp only [bitnot32]
  omega

/-- Witness for C3 at the concrete 8-byte input of the spec scenario. -/
theorem c3_witness :
    (sumWords [1, 0, 0, 0, 2, 0, 0, 0]
      + checksumField [0, 0, 0, 0] [1, 0, 0, 0, 2, 0, 0, 0]) % 2 ^ 32 = 0 :=
  c3_checksum_sum_zero [0, 0, 0, 0] [1, 0, 0, 0, 2, 0, 0, 0] (by decide)

/-- C4: for every non-empty input whose length is a multiple of 4, the
`-app_bin` output is exactly `[signature:4][size:4][checksum:4][payload]`
with all header fields little-endian and magic bytes FE CA 88 47, the
payload being the input verbatim; and at the 8-byte example input the
output is exactly the reference byte sequence of the spec scenario. -/
theorem c4_app_bin_layout (init b : List Nat) (hne : b ≠ [])
    (hmod : b.length % 4 = 0) :
    appBinOutput init b =
      [0xFE, 0xCA, 0x88, 0x47] ++ le32bytes b.length
        ++ le32bytes ((bitnot32 (sumWords b) + 1) % 2 ^ 32) ++ b ∧
    appBinOutput init [1, 0, 0, 0, 2, 0, 0, 0] =
      [0xFE, 0xCA, 0x88, 0x47, 0x08, 0, 0, 0, 0xFD, 0xFF, 0xFF, 0xFF,
       1, 0, 0, 0, 2, 0, 0, 0] := by
  have hsig : le32bytes signature = [0xFE, 0xCA, 0x88, 0x47] := by decide
  constructor
  · rw [appBinOutput_aligned init b hmod, hsig]
  · rw [appBinOutput_aligned init _ (by norm_num), hsig]
    decide

/-- Witness for C4 at the concrete 8-byte input of the spec scenario. -/
theorem c4_witness :
    appBinOutput [0, 0, 0, 0] [1, 0, 0, 0, 2, 0, 0, 0] =
      [0xFE, 0xCA, 0x88, 0x47] ++ le32bytes ([1, 0, 0, 0, 2, 0, 0, 0] : List Nat).length
        ++ le32bytes ((bitnot32 (sumWords [1, 0, 0, 0, 2, 0, 0, 0]) + 1) % 2 ^ 32)
        ++ [1, 0, 0, 0, 2, 0, 0, 0] ∧
    appBinOutput [0, 0, 0, 0] [1, 0, 0, 0, 2, 0, 0, 0] =
      [0xFE, 0xCA, 0x88, 0x47, 0x08, 0, 0, 0, 0xFD, 0xFF, 0xFF, 0xFF,
       1, 0, 0, 0, 2, 0, 0, 0] :=
  c4_app_bin_layout [0, 0, 0, 0] [1, 0, 0, 0, 2, 0, 0, 0] (by decide) (by decide)

/-- C5 (counterexample): the claim's word count is wrong at both stated
points. For a 256-byte signature the record has 65 words, not 9; for a
5-byte signature (short read, final group zero padded) it has
ceil(5/4) + 1 = 3 words, not 5/4 + 1 = 2. -/
theorem c5_counterexample :
    (secureBootRecord (List.replicate 256 0) 7).length ≠ 9 ∧
    (secureBootRecord [1, 2, 3, 4, 5] 7).length ≠ 5 / 4 + 1 ∧
    (secureBootRecord (List.replicate 256 0) 7).length = 65 ∧
    (secureBootRecord [1, 2, 3, 4, 5] 7).length = 3 := by
  refine ⟨by decide, by decide, by decide, by decide⟩

set_option maxRecDepth 4000 in
/-- C5 (amended): the emitted record is the signature segmented into
32-bit little-endian words (any final short group zero padded) followed
by exactly one trailing word equal to the image length in words (modulo
`2 ^ 32`), for a total word count of ceil(n/4) + 1 — which equals
n/4 + 1 when 4 divides n and is 65, not 9, for a 256-byte signature. -/
theorem c5_amended (sig : List Nat) (w : Nat) :
    (secureBootRecord sig w).length = (sig.length + 3) / 4 + 1 ∧
    (secureBootRecord sig w).getLast? = some (w % 2 ^ 32) ∧
    (secureBootRecord (List.replicate 256 0) w).length = 65 ∧
    (secureBootRecord (List.replicate 256 0) w).length =
      (List.replicate 256 (0 : Nat)).length / 4 + 1 := by
  refine ⟨?_, ?_, ?_, ?_⟩
  · simp [secureBootRecord, sigWords_length]
  · simp [secureBootRecord]
  · simp [secureBootRecord, sigWords_length]
  · simp [secureBootRecord, sigWords_length]

/-- C6 (counterexample): on the 9-byte input [1,0,0,0, 2,0,0,0, 5] the
alignment warning fires, but the emitted size field is 12, not
4 * floor(9/4) = 8, and the accumulated checksum is 8 (the trailing word
5 included), not the complete-groups sum 3: the leftover byte is not
dropped. -/
theorem c6_counterexample :
    alignWarning ([1, 0, 0, 0, 2, 0, 0, 0, 5] : List Nat).length = true ∧
    (appBinRun [0, 0, 0, 0] [1, 0, 0, 0, 2, 0, 0, 0, 5]).2.1 ≠
      4 * (([1, 0, 0, 0, 2, 0, 0, 0, 5] : List Nat).length / 4) ∧
    (appBinRun [0, 0, 0, 0] [1, 0, 0, 0, 2, 0, 0, 0, 5]).1 ≠
      sumWords [1, 0, 0, 0, 2, 0, 0, 0] % 2 ^ 32 ∧
    (appBinRun [0, 0, 0, 0] [1, 0, 0, 0, 2, 0, 0, 0, 5]).2.1 = 12 ∧
    (appBinRun [0, 0, 0, 0] [1, 0, 0, 0, 2, 0, 0, 0, 5]).1 = 8 := by decide

/-- C6 (amended): for every input whose length is not a multiple of 4 the
`-app_bin` path surfaces the non-fatal alignment warning, but the
trailing leftover bytes are processed rather than dropped: the final
short read still runs an iteration whose word (completed with the stale
bytes of the previous read in the unfilled buffer positions) is added to
the checksum, and the emitted size field is 4 * ceil(length/4). -/
theorem c6_amended (init b : List Nat) (hbuf : init.length = 4)
    (hmod : b.length % 4 ≠ 0) (hfit : b.length + 3 < 2 ^ 32) :
    alignWarning b.length = true ∧
    (appBinRun init b).2.1 = 4 * ((b.length + 3) / 4) ∧
    (finalBuf init b).length = 4 ∧
    (appBinRun init b).2.2 = b.take (4 * (b.length / 4)) ++ finalBuf init b ∧
    (appBinRun init b).1 =
      (sumWords (b.take (4 * (b.length / 4))) + le32l (finalBuf init b)) % 2 ^ 32 := by
  have hfb : (finalBuf init b).length = 4 := by
    unfold finalBuf staleBuf
    by_cases hl : b.length < 4
    · rw [if_pos hl]
      simp only [List.length_append, List.length_drop, hbuf]
      omega
    · rw [if_neg hl]
      simp only [List.length_append, List.length_drop, List.length_take]
      omega
  unfold appBinRun
  rw [appBinLoopAux_unaligned init 0 0 [] b hbuf (by norm_num) (by norm_num) hmod]
  refine ⟨by simpa [alignWarning] using hmod, by simp; omega, hfb, by simp, by simp⟩

/-- Witness for the amended C6 at the concrete 9-byte input. -/
theorem c6_witness :
    alignWarning ([1, 0, 0, 0, 2, 0, 0, 0, 5] : List Nat).length = true ∧
    (appBinRun [0, 0, 0, 0] [1, 0, 0, 0, 2, 0, 0, 0, 5]).2.1 =
      4 * ((([1, 0, 0, 0, 2, 0, 0, 0, 5] : List Nat).length + 3) / 4) ∧
    (finalBuf [0, 0, 0, 0] [1, 0, 0, 0, 2, 0, 0, 0, 5]).length = 4 ∧
    (appBinRun [0, 0, 0, 0] [1, 0, 0, 0, 2, 0, 0, 0, 5]).2.2 =
      ([1, 0, 0, 0, 2, 0, 0, 0, 5] : List Nat).take
          (4 * (([1, 0, 0, 0, 2, 0, 0, 0, 5] : List Nat).length / 4))
        ++ finalBuf [0, 0, 0, 0] [1, 0, 0, 0, 2, 0, 0, 0, 5] ∧
    (appBinRun [0, 0, 0, 0] [1, 0, 0, 0, 2, 0, 0, 0, 5]).1 =
      (sumWords (([1, 0, 0, 0, 2, 0, 0, 0, 5] : List Nat).take
          (4 * (([1, 0, 0, 0, 2, 0, 0, 0, 5] : List Nat).length / 4)))
        + le32l (finalBuf [0, 0, 0, 0] [1, 0, 0, 0, 2, 0, 0, 0, 5])) % 2 ^ 32 :=
  c6_amended [0, 0, 0, 0] [1, 0, 0, 0, 2, 0, 0, 0, 5] (by decide) (by decide) (by decide)

/-- C7 (counterexample): at input length 55 the final partial block holds
exactly 56 data-and-marker bytes (55 data bytes plus the 0x80 marker), so
the claim as stated requires two extra padding blocks, yet the code
produces exactly one (the 8-byte length still fits at offset 56). -/
theorem c7_counterexample :
    56 ≤ (List.replicate 55 0 : List Nat).length % 64 + 1 ∧
    (sha256BlockSeq (List.replicate 55 0)).length =
      (List.replicate 55 0 : List Nat).length / 64 + 1 ∧
    (sha256BlockSeq (List.replicate 55 0)).length ≠
      (List.replicate 55 0 : List Nat).length / 64 + 2 := by decide

/-- C7 (amended): for every input, the padding appends the single byte
0x80, then zero bytes, then the original bit length as a 64-bit
big-endian integer, every compressed block is 64 bytes, and the number of
blocks is the number of full data blocks plus one exactly when the final
partial block holds fewer than 56 data bytes (i.e. at most 56
data-and-marker bytes), plus two otherwise. -/
theorem c7_amended (data : List Nat) :
    (sha256BlockSeq data).length =
      data.length / 64 + (if data.length % 64 < 56 then 1 else 2) ∧
    (sha256BlockSeq data).flatten =
      data ++ 0x80 :: List.replicate ((119 - data.length % 64) % 64) 0
        ++ be64bytes (8 * data.length) ∧
    ∀ blk ∈ sha256BlockSeq data, blk.length = 64 := by
  obtain ⟨l1, l2, l3, l4⟩ := fullBlocksAux_spec data.length data (le_refl _)
  have htail : (fullBlocksAux data.length data).2.length = data.length % 64 := by
    rw [l3]
    simp only [List.length_drop]
    omega
  have htail64 : (fullBlocksAux data.length data).2.length < 64 := by
    rw [htail]; omega
  unfold sha256BlockSeq fullBlocks
  refine ⟨?_, ?_, ?_⟩
  · rw [List.length_append, finalBlocks_length, l1, htail]
  · rw [List.flatten_append, finalBlocks_flatten _ _ htail64, htail, l2, l3]
    simp only [← List.append_assoc]
    rw [List.take_append_drop]
  · intro blk hblk
    rcases List.mem_append.mp hblk with hb | hb
    · exact l4 blk hb
    · exact finalBlocks_mem_length _ _ htail64 blk hb

/-- C8 (code-bug evidence): cleanup does not cover every exit path of
the signing phase. When the signature file can be opened, both transient
artifacts are removed whatever the signer exit status; but when the
external signer leaves no readable `sha256.sig`, the code falls into
`fread` on a NULL stream and execution never reaches the `unlink` calls,
so the digest file `sha256.bin` (here holding the bytes 1, 2, 3)
persists past the run. -/
theorem c8_cleanup_misses_crash_path :
    (∀ (ret : Int) (sigBytes digestBytes : List Nat) (fs : TempFS),
      ∃ sigRead, signingPhase true ret (some sigBytes) digestBytes fs =
        SigningOutcome.finished ⟨none, none⟩ sigRead) ∧
    signingPhase true 1 none [1, 2, 3] ⟨none, none⟩ =
      SigningOutcome.crashed ⟨some [1, 2, 3], none⟩ ∧
    (⟨some [1, 2, 3], none⟩ : TempFS).digestFile ≠ none := by
  refine ⟨fun ret sigBytes digestBytes fs => ⟨sigBytes.take 256, rfl⟩, rfl, by simp⟩

/-- C9: for every input with length L satisfying 4 < L and L % 4 ≠ 0, the
final short read still runs an iteration: the stale buffer bytes come
from the previous (full) 4-byte group, the final 4-byte buffer is
appended in full to the payload, its little-endian word is added to the
checksum, and the emitted size field equals 4 * ceil(L/4). -/
theorem c9_trailing_group (init b : List Nat) (hbuf : init.length = 4)
    (hlen : 4 < b.length) (hmod : b.length % 4 ≠ 0) (hfit : b.length + 3 < 2 ^ 32) :
    (appBinRun init b).2.1 = 4 * ((b.length + 3) / 4) ∧
    staleBuf init b = (b.take (4 * (b.length / 4))).drop (4 * (b.length / 4) - 4) ∧
    (finalBuf init b).length = 4 ∧
    (appBinRun init b).2.2 = b.take (4 * (b.length / 4)) ++ finalBuf init b ∧
    (appBinRun init b).1 =
      (sumWords (b.take (4 * (b.length / 4))) + le32l (finalBuf init b)) % 2 ^ 32 := by
  have hstale : staleBuf init b
      = (b.take (4 * (b.length / 4))).drop (4 * (b.length / 4) - 4) := by
    unfold staleBuf
    rw [if_neg (by omega)]
  have hfb : (finalBuf init b).length = 4 := by
    unfold finalBuf
    rw [hstale]
    simp only [List.length_append, List.length_drop, List.length_take]
    omega
  unfold appBinRun
  rw [appBinLoopAux_unaligned init 0 0 [] b hbuf (by norm_num) (by norm_num) hmod]
  refine ⟨by simp; omega, hstale, hfb, by simp, by simp⟩

/-- Witness for C9 at the concrete 9-byte input. -/
theorem c9_witness :
    (appBinRun [0, 0, 0, 0] [1, 0, 0, 0, 2, 0, 0, 0, 5]).2.1 =
      4 * ((([1, 0, 0, 0, 2, 0, 0, 0, 5] : List Nat).length + 3) / 4) ∧
    staleBuf [0, 0, 0, 0] [1, 0, 0, 0, 2, 0, 0, 0, 5] =
      (([1, 0, 0, 0, 2, 0, 0, 0, 5] : List Nat).take
          (4 * (([1, 0, 0, 0, 2, 0, 0, 0, 5] : List Nat).length / 4))).drop
        (4 * (([1, 0, 0, 0, 2, 0, 0, 0, 5] : List Nat).length / 4) - 4) ∧
    (finalBuf [0, 0, 0, 0] [1, 0, 0, 0, 2, 0, 0, 0, 5]).length = 4 ∧
    (appBinRun [0, 0, 0, 0] [1, 0, 0, 0, 2, 0, 0, 0, 5]).2.2 =
      ([1, 0, 0, 0, 2, 0, 0, 0, 5] : List Nat).take
          (4 * (([1, 0, 0, 0, 2, 0, 0, 0, 5] : List Nat).length / 4))
        ++ finalBuf [0, 0, 0, 0] [1, 0, 0, 0, 2, 0, 0, 0, 5] ∧
    (appBinRun [0, 0, 0, 0] [1, 0, 0, 0, 2, 0, 0, 0, 5]).1 =
      (sumWords (([1, 0, 0, 0, 2, 0, 0, 0, 5] : List Nat).take
          (4 * (([1, 0, 0, 0, 2, 0, 0, 0, 5] : List Nat).length / 4)))
        + le32l (finalBuf [0, 0, 0, 0] [1, 0, 0, 0, 2, 0, 0, 0, 5])) % 2 ^ 32 :=
  c9_trailing_group [0, 0, 0, 0] [1, 0, 0, 0, 2, 0, 0, 0, 5]
    (by decide) (by decide) (by decide) (by decide)

/-- C10: an input that opens successfully but has size zero makes `main`
return -3 before the output file is ever opened, so any pre-existing
contents at the output path are left unchanged. -/
theorem c10_empty_input_exit (b : List Nat) (outFile : Option (List Nat))
    (hempty : b.length = 0) :
    mainUpToOutput (some b) outFile = (some (-3), outFile) := by
  have hb : b = [] := List.eq_nil_of_length_eq_zero hempty
  subst hb
  rfl

/-- Witness for C10: an empty input next to a populated output file. -/
theorem c10_witness :
    mainUpToOutput (some []) (some [1, 2, 3]) = (some (-3), some [1, 2, 3]) :=
  c10_empty_input_exit [] (some [1, 2, 3]) rfl

end ImageGen
